import Mathlib

/-!
Verification of the upload pipeline of a backup-synchronization tool.

The development shallowly embeds the core functions of the Rust sources:

* `src/stream_splitter.rs` — `splitter`: re-frames a byte stream into
  size-capped sub-streams with offsets;
* `src/sync.rs` — `get_target_backup_groups`: the planner's target-group
  computation over ordered maps of backup groups;
* `src/encryptor.rs` — `Encryptor::close`/`write`/`flush`/`finish` and the
  result folding of `stdout_reader`;
* `src/http_client/client.rs` — `parse_api_error`, the transport's error
  parser.

Bytes are modelled as natural numbers, byte buffers as lists.  Channels are
modelled by the sequence of items a consumer observes on them; blocking and
rendezvous behaviour is not modelled (all sends are assumed to find a live
receiver, which is the regime all the claims below speak about).
-/

namespace StreamSplitter

/-- A byte buffer (`Bytes` in the Rust source). -/
abbrev Buf := List Nat

/-- An item travelling through a sub-stream's chunk channel:
`ChunkResult = Result<Chunk, hyper::Error>`. -/
inductive ChunkItem where
  | ok (data : Buf)
  | err (msg : String)
deriving Repr, DecidableEq

/-- Length contributed by one chunk item (error items carry no payload). -/
def chunkLen : ChunkItem → Nat
  | .ok d => d.length
  | .err _ => 0

/-- Payload bytes carried by one chunk item. -/
def chunkBytes : ChunkItem → Buf
  | .ok d => d
  | .err _ => []

/-- Total chunk length of one sub-stream's item list. -/
def chunksLen (l : List ChunkItem) : Nat := (l.map chunkLen).sum

/-- Concatenated payload of one sub-stream's item list. -/
def chunksBytes (l : List ChunkItem) : Buf := (l.map chunkBytes).flatten

/-- A closed sub-stream as the consumer observes it: its start offset
(sent in `ChunkStream::Receiver(offset, rx)`) and the items that later
arrived on its chunk channel. -/
abbrev SubStream := Nat × List ChunkItem

/-- An item on the outer channel of `ChunkStream`s, with each sub-stream's
eventual contents attached to its `Receiver` record. -/
inductive OutItem where
  | stream (start : Nat) (chunks : List ChunkItem)
  | eofRecord (offset : Nat) (checksum : String)
deriving Repr, DecidableEq

/-- An input frame on the splitter's data channel:
`GenericResult<Data>` with `Data = Payload | EofWithChecksum`. -/
inductive Frame where
  | payload (data : Buf)
  | eofWithChecksum (checksum : String)
  | error (msg : String)
deriving Repr, DecidableEq

/-- How a run of the `splitter` thread function ends. -/
inductive SplitResult where
  | ok
  | panicked
  | diverge
deriving Repr, DecidableEq

/-- The splitter's loop state: `offset` and `stream_size` counters of the
source, plus the currently open sub-stream (`curStart`, `cur`) and the
sub-streams already closed, oldest first. -/
structure SplitterState where
  offset : Nat
  streamSize : Nat
  curStart : Nat
  cur : List ChunkItem
  streams : List SubStream
deriving Repr, DecidableEq

/-- Initial state: the first sub-stream is opened at offset 0 before any
frame is read. -/
def initState : SplitterState := ⟨0, 0, 0, [], []⟩

/-- Close the current sub-stream and open a new one at the current offset
(`futures_mpsc::channel(0)` plus `chunk_streams.send(Receiver(offset, rx))`,
`stream_size = 0`). -/
def closeAndOpen (s : SplitterState) : SplitterState :=
  { offset := s.offset, streamSize := 0, curStart := s.offset, cur := [],
    streams := s.streams ++ [(s.curStart, s.cur)] }

/-- The inner loop of `splitter` over one `Payload(data)` frame.  `none`
models the infinite loop the source enters when `stream_max_size = 0` and a
non-empty payload arrives (then `available_size` is always 0 and the loop
keeps opening empty sub-streams forever). -/
def processPayload (M : Nat) (data : Buf) (s : SplitterState) :
    Option SplitterState :=
  let available := M - s.streamSize
  if hle : data.length ≤ available then
    if data.length = 0 then some s
    else some { s with
      cur := s.cur ++ [ChunkItem.ok data],
      streamSize := s.streamSize + data.length,
      offset := s.offset + data.length }
  else
    if hpos : 0 < available then
      processPayload M (data.drop available)
        (closeAndOpen { s with
          cur := s.cur ++ [ChunkItem.ok (data.take available)],
          offset := s.offset + available })
    else if hss : s.streamSize = 0 then none
    else processPayload M data (closeAndOpen s)
termination_by 2 * data.length + (if s.streamSize = 0 then 0 else 1)
decreasing_by
  · simp only [closeAndOpen, List.length_drop, reduceIte]
    omega
  · simp only [closeAndOpen, reduceIte, if_neg hss]
    omega

/-- Render the closed sub-streams as outer-channel items. -/
def toOutItems (l : List SubStream) : List OutItem :=
  l.map fun p => OutItem.stream p.1 p.2

/-- The body of the `splitter` thread function over the remaining input
frames.  An exhausted frame list models the input channel being closed. -/
def splitter (M : Nat) : List Frame → SplitterState → List OutItem × SplitResult
  | [], s => (toOutItems (s.streams ++ [(s.curStart, s.cur)]), .ok)
  | .payload data :: rest, s =>
    match processPayload M data s with
    | some s' => splitter M rest s'
    | none => (toOutItems s.streams, .diverge)
  | .eofWithChecksum ck :: _, s =>
    (toOutItems (s.streams ++ [(s.curStart, s.cur)]) ++ [.eofRecord s.offset ck],
     .ok)
  | .error msg :: rest, s =>
    (toOutItems (s.streams ++ [(s.curStart, s.cur ++ [ChunkItem.err msg])]),
     if rest.isEmpty then .ok else .panicked)

/-- A whole run of the splitter from its initial state. -/
def split (M : Nat) (frames : List Frame) : List OutItem × SplitResult :=
  splitter M frames initState

/-- The sub-streams among the outer-channel items, in emission order. -/
def subStreams (out : List OutItem) : List SubStream :=
  out.filterMap fun i =>
    match i with
    | .stream st cs => some (st, cs)
    | .eofRecord _ _ => none

/-- Concatenation of all chunk payloads of all sub-streams, in emission
order. -/
def outBytes (out : List OutItem) : Buf :=
  ((subStreams out).map fun p => chunksBytes p.2).flatten

theorem chunksLen_append (a b : List ChunkItem) :
    chunksLen (a ++ b) = chunksLen a + chunksLen b := by
  simp [chunksLen]

theorem chunksBytes_append (a b : List ChunkItem) :
    chunksBytes (a ++ b) = chunksBytes a ++ chunksBytes b := by
  simp [chunksBytes]

theorem chunksLen_eq_length (l : List ChunkItem) :
    chunksLen l = (chunksBytes l).length := by
  induction l with
  | nil => rfl
  | cons c rest ih =>
    have hc : chunkLen c = (chunkBytes c).length := by cases c <;> rfl
    simp only [chunksLen, chunksBytes, List.map_cons, List.sum_cons,
      List.flatten_cons, List.length_append] at ih ⊢
    omega

/-- Payload bytes of the closed sub-streams, in order. -/
def streamsBytes (l : List SubStream) : Buf :=
  (l.map fun p => chunksBytes p.2).flatten

/-- All payload bytes the splitter has accepted so far: closed sub-streams
first, then the currently open one. -/
def stateBytes (s : SplitterState) : Buf :=
  streamsBytes s.streams ++ chunksBytes s.cur

theorem streamsBytes_append (a b : List SubStream) :
    streamsBytes (a ++ b) = streamsBytes a ++ streamsBytes b := by
  simp [streamsBytes]

/-- Offsets of a sub-stream list chain cumulatively from `a` to `b`. -/
def chainedFrom : Nat → List SubStream → Nat → Prop
  | a, [], b => a = b
  | a, p :: rest, b => p.1 = a ∧ chainedFrom (a + chunksLen p.2) rest b

theorem chainedFrom_append (a b : Nat) (l : List SubStream) (p : SubStream)
    (h : chainedFrom a l b) (hp : p.1 = b) :
    chainedFrom a (l ++ [p]) (b + chunksLen p.2) := by
  induction l generalizing a with
  | nil =>
    simp only [chainedFrom] at h
    subst h
    exact ⟨hp, rfl⟩
  | cons q rest ih =>
    exact ⟨h.1, ih _ h.2⟩

/-- The splitter's loop invariant. -/
structure Inv (M : Nat) (s : SplitterState) : Prop where
  size_eq : s.streamSize = chunksLen s.cur
  size_le : s.streamSize ≤ M
  offset_eq : s.offset = s.curStart + s.streamSize
  chained : chainedFrom 0 s.streams s.curStart
  full : ∀ p ∈ s.streams, chunksLen p.2 = M

theorem initState_inv (M : Nat) : Inv M initState :=
  ⟨rfl, Nat.zero_le M, rfl, rfl, by simp [initState]⟩

theorem chunksLen_snoc_ok (l : List ChunkItem) (d : Buf) :
    chunksLen (l ++ [ChunkItem.ok d]) = chunksLen l + d.length := by
  simp [chunksLen, chunkLen]

theorem chunksBytes_snoc_ok (l : List ChunkItem) (d : Buf) :
    chunksBytes (l ++ [ChunkItem.ok d]) = chunksBytes l ++ d := by
  simp [chunksBytes, chunkBytes]

theorem streamsBytes_snoc (l : List SubStream) (p : SubStream) :
    streamsBytes (l ++ [p]) = streamsBytes l ++ chunksBytes p.2 := by
  simp [streamsBytes]

theorem stateBytes_closeAndOpen (s : SplitterState) :
    stateBytes (closeAndOpen s) = stateBytes s := by
  simp [stateBytes, closeAndOpen, streamsBytes_snoc, chunksBytes]

theorem processPayload_spec (M : Nat) (hM : 0 < M) (data : Buf)
    (s : SplitterState) (hs : Inv M s) :
    ∃ s', processPayload M data s = some s' ∧ Inv M s' ∧
      s'.offset = s.offset + data.length ∧
      stateBytes s' = stateBytes s ++ data ∧
      ∃ t, s'.streams = s.streams ++ t := by
  induction data, s using processPayload.induct M with
  | case1 data s avail hle h0 =>
    have hnil : data = [] := List.eq_nil_of_length_eq_zero h0
    refine ⟨s, ?_, hs, by simp [h0], by simp [hnil], [], by simp⟩
    rw [processPayload]
    simp [hle, h0]
  | case2 data s avail hle h0 =>
    refine ⟨{ s with
        cur := s.cur ++ [ChunkItem.ok data],
        streamSize := s.streamSize + data.length,
        offset := s.offset + data.length }, ?_, ⟨?_, ?_, ?_, hs.chained, hs.full⟩,
      rfl, ?_, [], by simp⟩
    · rw [processPayload]
      simp [hle, h0]
    · show s.streamSize + data.length = chunksLen (s.cur ++ [ChunkItem.ok data])
      rw [chunksLen_snoc_ok, ← hs.size_eq]
    · show s.streamSize + data.length ≤ M
      have h1 := hs.size_le
      omega
    · show s.offset + data.length = s.curStart + (s.streamSize + data.length)
      have h1 := hs.offset_eq
      omega
    · show stateBytes _ = stateBytes s ++ data
      simp [stateBytes, chunksBytes_snoc_ok]
  | case3 data s avail hle hpos ih =>
    have hlt : avail < data.length := by omega
    have htk : (data.take avail).length = avail := by
      rw [List.length_take]
      omega
    have hfull : chunksLen (s.cur ++ [ChunkItem.ok (data.take avail)]) = M := by
      rw [chunksLen_snoc_ok, ← hs.size_eq, htk]
      have h2 := hs.size_le
      omega
    have hinv : Inv M (closeAndOpen
        { s with
          cur := s.cur ++ [ChunkItem.ok (data.take avail)],
          offset := s.offset + avail }) := by
      refine ⟨rfl, Nat.zero_le M, by simp [closeAndOpen], ?_, ?_⟩
      · show chainedFrom 0 (s.streams ++ [(s.curStart, _)]) (s.offset + avail)
        have hch := chainedFrom_append 0 s.curStart s.streams
          (s.curStart, s.cur ++ [ChunkItem.ok (data.take avail)]) hs.chained rfl
        have heq : s.curStart + chunksLen (s.cur ++ [ChunkItem.ok (data.take avail)])
            = s.offset + avail := by
          rw [chunksLen_snoc_ok, ← hs.size_eq, htk]
          have h3 := hs.offset_eq
          omega
        rwa [heq] at hch
      · intro p hp
        rcases List.mem_append.mp hp with h | h
        · exact hs.full p h
        · simp only [List.mem_singleton] at h
          subst h
          exact hfull
    obtain ⟨s', heq, hinv', hoff, hbytes, t, ht⟩ := ih hinv
    refine ⟨s', ?_, hinv', ?_, ?_,
      (s.curStart, s.cur ++ [ChunkItem.ok (data.take avail)]) :: t, ?_⟩
    · rw [processPayload]
      simp only [hle, hpos, reduceDIte, dite_eq_ite]
      exact heq
    · rw [hoff]
      show s.offset + avail + (data.drop avail).length = s.offset + data.length
      rw [List.length_drop]
      omega
    · rw [hbytes, stateBytes_closeAndOpen]
      show stateBytes _ ++ data.drop avail = stateBytes s ++ data
      rw [show stateBytes { s with
          cur := s.cur ++ [ChunkItem.ok (data.take avail)],
          offset := s.offset + avail } = stateBytes s ++ data.take avail from by
        simp [stateBytes, chunksBytes_snoc_ok]]
      rw [List.append_assoc, List.take_append_drop]
    · rw [ht]
      simp [closeAndOpen]
  | case4 data s avail hle hpos hss =>
    exfalso
    have : avail = M - s.streamSize := rfl
    omega
  | case5 data s avail hle hpos hss ih =>
    have hfull : chunksLen s.cur = M := by
      have h1 := hs.size_eq
      have h2 := hs.size_le
      omega
    have hinv : Inv M (closeAndOpen s) := by
      refine ⟨rfl, Nat.zero_le M, by simp [closeAndOpen], ?_, ?_⟩
      · show chainedFrom 0 (s.streams ++ [(s.curStart, s.cur)]) s.offset
        have hch := chainedFrom_append 0 s.curStart s.streams
          (s.curStart, s.cur) hs.chained rfl
        have heq : s.curStart + chunksLen s.cur = s.offset := by
          have h1 := hs.size_eq
          have h3 := hs.offset_eq
          omega
        rwa [heq] at hch
      · intro p hp
        rcases List.mem_append.mp hp with h | h
        · exact hs.full p h
        · simp only [List.mem_singleton] at h
          subst h
          exact hfull
    obtain ⟨s', heq, hinv', hoff, hbytes, t, ht⟩ := ih hinv
    refine ⟨s', ?_, hinv', ?_, ?_, (s.curStart, s.cur) :: t, ?_⟩
    · rw [processPayload]
      simp only [hle, hpos, hss, reduceDIte, dite_eq_ite, if_neg]
      exact heq
    · rw [hoff]
      rfl
    · rw [hbytes, stateBytes_closeAndOpen]
    · rw [ht]
      simp [closeAndOpen]

/-- The for-loop of `splitter` restricted to a run of `Payload` frames. -/
def processPayloads (M : Nat) : List Buf → SplitterState → Option SplitterState
  | [], s => some s
  | d :: ds, s =>
    match processPayload M d s with
    | some s' => processPayloads M ds s'
    | none => none

theorem processPayloads_spec (M : Nat) (hM : 0 < M) (ps : List Buf)
    (s : SplitterState) (hs : Inv M s) :
    ∃ s', processPayloads M ps s = some s' ∧ Inv M s' ∧
      s'.offset = s.offset + ps.flatten.length ∧
      stateBytes s' = stateBytes s ++ ps.flatten ∧
      ∃ t, s'.streams = s.streams ++ t := by
  induction ps generalizing s with
  | nil => exact ⟨s, rfl, hs, by simp, by simp, [], by simp⟩
  | cons d ds ih =>
    obtain ⟨s1, h1, hinv1, hoff1, hbytes1, t1, ht1⟩ :=
      processPayload_spec M hM d s hs
    obtain ⟨s2, h2, hinv2, hoff2, hbytes2, t2, ht2⟩ := ih s1 hinv1
    refine ⟨s2, ?_, hinv2, ?_, ?_, t1 ++ t2, ?_⟩
    · simp only [processPayloads, h1]
      exact h2
    · rw [hoff2, hoff1]
      simp
      omega
    · rw [hbytes2, hbytes1]
      simp [List.append_assoc]
    · rw [ht2, ht1, List.append_assoc]

/-- `splitter` on a run of `Payload` frames followed by anything else just
threads the state through the payload loop. -/
theorem splitter_payloads (M : Nat) (ps : List Buf) (rest : List Frame)
    (s s' : SplitterState) (h : processPayloads M ps s = some s') :
    splitter M (ps.map Frame.payload ++ rest) s = splitter M rest s' := by
  induction ps generalizing s with
  | nil =>
    simp only [processPayloads, Option.some_inj] at h
    subst h
    rfl
  | cons d ds ih =>
    simp only [processPayloads] at h
    rcases heq : processPayload M d s with _ | s1
    · rw [heq] at h
      exact absurd h (by simp)
    · rw [heq] at h
      simp only [List.map_cons, List.cons_append, splitter, heq]
      exact ih s1 h

theorem subStreams_toOutItems (l : List SubStream) :
    subStreams (toOutItems l) = l := by
  induction l with
  | nil => rfl
  | cons p rest ih =>
    simp only [toOutItems, List.map_cons, subStreams, List.filterMap_cons] at ih ⊢
    exact congrArg (p :: ·) ih

theorem subStreams_append_eofRecord (out : List OutItem) (off : Nat) (ck : String) :
    subStreams (out ++ [OutItem.eofRecord off ck]) = subStreams out := by
  simp [subStreams, List.filterMap_append]

/-- Shape of every non-diverging terminal configuration: the sub-streams
observed are the closed ones of some reachable invariant state, plus the
stream that was open when the run ended. -/
theorem splitter_shape (M : Nat) (hM : 0 < M) (frames : List Frame)
    (s : SplitterState) (hs : Inv M s) :
    ∃ s' cs, Inv M s' ∧
      subStreams (splitter M frames s).1 = s'.streams ++ [(s'.curStart, cs)] ∧
      (splitter M frames s).2 ≠ SplitResult.diverge ∧
      chunksLen cs ≤ M := by
  induction frames generalizing s with
  | nil =>
    refine ⟨s, s.cur, hs, ?_, by simp [splitter], by rw [← hs.size_eq]; exact hs.size_le⟩
    simp [splitter, subStreams_toOutItems]
  | cons f rest ih =>
    cases f with
    | payload d =>
      obtain ⟨s1, h1, hinv1, _, _, _, _⟩ := processPayload_spec M hM d s hs
      simp only [splitter, h1]
      exact ih s1 hinv1
    | eofWithChecksum ck =>
      refine ⟨s, s.cur, hs, ?_, by simp [splitter], by rw [← hs.size_eq]; exact hs.size_le⟩
      simp [splitter, subStreams_append_eofRecord, subStreams_toOutItems]
    | error msg =>
      refine ⟨s, s.cur ++ [ChunkItem.err msg], hs, ?_, ?_, ?_⟩
      · simp [splitter, subStreams_toOutItems]
      · simp only [splitter]
        rcases rest.isEmpty with _ | _ <;> simp
      · rw [chunksLen_append, ← hs.size_eq]
        have : chunksLen [ChunkItem.err msg] = 0 := rfl
        rw [this]
        have := hs.size_le
        omega

theorem streamsBytes_length (l : List SubStream) :
    (streamsBytes l).length = (l.map fun p => chunksLen p.2).sum := by
  induction l with
  | nil => rfl
  | cons p rest ih =>
    simp only [streamsBytes, List.map_cons, List.flatten_cons, List.length_append,
      List.sum_cons, chunksLen_eq_length] at ih ⊢
    omega

theorem chain_of_chainedFrom (M : Nat) (hM : 0 < M) (l : List SubStream)
    (a b : Nat) (cs : List ChunkItem) (h : chainedFrom a l b)
    (hfull : ∀ p ∈ l, chunksLen p.2 = M) :
    List.Chain' (fun p q : SubStream => q.1 = p.1 + chunksLen p.2 ∧ p.1 < q.1)
      (l ++ [(b, cs)]) ∧
    (l ++ [(b, cs)]).head?.map Prod.fst = some a := by
  induction l generalizing a with
  | nil =>
    simp only [chainedFrom] at h
    subst h
    exact ⟨List.chain'_singleton _, rfl⟩
  | cons p rest ih =>
    have hk : chunksLen p.2 = M := hfull p (List.mem_cons_self p rest)
    obtain ⟨hch, hhd⟩ := ih (a + chunksLen p.2) h.2
      (fun q hq => hfull q (List.mem_cons_of_mem p hq))
    refine ⟨?_, by simp [h.1]⟩
    rw [List.cons_append]
    refine List.chain'_cons'.mpr ⟨?_, hch⟩
    intro q hq
    have hq1 : q.1 = a + chunksLen p.2 := by
      have hhq : (rest ++ [(b, cs)]).head? = some q := Option.mem_def.mp hq
      rw [hhq] at hhd
      simpa using hhd
    constructor
    · rw [hq1, h.1]
    · rw [hq1, h.1, hk]
      omega

/-- **C2.**  For every input to the splitter (and positive
`stream_max_size`, as the splitter's input contract requires), the emitted
sub-streams are non-empty, the first one starts at offset 0, consecutive
sub-streams have adjacent start offsets
(`next.start = prev.start + sum(prev chunk lengths)`, hence each start is
the cumulative byte count emitted before the sub-stream opened), and start
offsets are strictly increasing. -/
theorem splitter_offsets_adjacent_increasing (M : Nat) (frames : List Frame)
    (hM : 0 < M) :
    subStreams (split M frames).1 ≠ [] ∧
    (subStreams (split M frames).1).head?.map Prod.fst = some 0 ∧
    List.Chain' (fun p q : SubStream => q.1 = p.1 + chunksLen p.2 ∧ p.1 < q.1)
      (subStreams (split M frames).1) := by
  obtain ⟨s', cs, hinv, hsubs, _, _⟩ :=
    splitter_shape M hM frames initState (initState_inv M)
  have hsubs' : subStreams (split M frames).1 = s'.streams ++ [(s'.curStart, cs)] :=
    hsubs
  obtain ⟨hch, hhd⟩ :=
    chain_of_chainedFrom M hM s'.streams 0 s'.curStart cs hinv.chained hinv.full
  rw [hsubs']
  exact ⟨by simp, hhd, hch⟩

/-- **C2 witness.** -/
theorem splitter_offsets_adjacent_increasing_witness :
    0 < 1 ∧
    (subStreams (split 1 [Frame.payload [7]]).1 ≠ [] ∧
     (subStreams (split 1 [Frame.payload [7]]).1).head?.map Prod.fst = some 0 ∧
     List.Chain' (fun p q : SubStream => q.1 = p.1 + chunksLen p.2 ∧ p.1 < q.1)
       (subStreams (split 1 [Frame.payload [7]]).1)) :=
  ⟨by decide, splitter_offsets_adjacent_increasing 1 [Frame.payload [7]] (by decide)⟩

theorem toOutItems_append (a b : List SubStream) :
    toOutItems (a ++ b) = toOutItems a ++ toOutItems b := by
  simp [toOutItems]

/-- **C1.**  For payload frames `ps` terminated by an EOF frame and any
positive `stream_max_size M`, the run succeeds, every emitted sub-stream's
chunk lengths sum to at most `M`, concatenating all chunks of all
sub-streams in emission order reproduces the input payload bytes, and hence
the total of chunk lengths over all sub-streams emitted before the EOF
record equals the total payload byte count. -/
theorem splitter_size_bound_and_concat (M : Nat) (ps : List Buf) (ck : String)
    (hM : 0 < M) :
    (split M (ps.map Frame.payload ++ [Frame.eofWithChecksum ck])).2 =
      SplitResult.ok ∧
    (∀ p ∈ subStreams (split M (ps.map Frame.payload ++
        [Frame.eofWithChecksum ck])).1, chunksLen p.2 ≤ M) ∧
    outBytes (split M (ps.map Frame.payload ++
        [Frame.eofWithChecksum ck])).1 = ps.flatten ∧
    ((subStreams (split M (ps.map Frame.payload ++
        [Frame.eofWithChecksum ck])).1).map fun p => chunksLen p.2).sum =
      ps.flatten.length := by
  obtain ⟨s1, h1, hinv1, hoff1, hbytes1, _, _⟩ :=
    processPayloads_spec M hM ps initState (initState_inv M)
  have hrun : split M (ps.map Frame.payload ++ [Frame.eofWithChecksum ck]) =
      (toOutItems (s1.streams ++ [(s1.curStart, s1.cur)]) ++
        [OutItem.eofRecord s1.offset ck], SplitResult.ok) := by
    rw [split, splitter_payloads M ps _ initState s1 h1]
    rfl
  have hsubs : subStreams (split M (ps.map Frame.payload ++
      [Frame.eofWithChecksum ck])).1 = s1.streams ++ [(s1.curStart, s1.cur)] := by
    rw [hrun]
    simp [subStreams_append_eofRecord, subStreams_toOutItems]
  have hbytes0 : stateBytes s1 = ps.flatten := by
    rw [hbytes1]
    rfl
  refine ⟨by rw [hrun], ?_, ?_, ?_⟩
  · rw [hsubs]
    intro p hp
    rcases List.mem_append.mp hp with h | h
    · rw [hinv1.full p h]
    · simp only [List.mem_singleton] at h
      subst h
      rw [← hinv1.size_eq]
      exact hinv1.size_le
  · show streamsBytes (subStreams _) = ps.flatten
    rw [hsubs, streamsBytes_snoc, ← stateBytes]
    exact hbytes0
  · rw [hsubs, ← streamsBytes_length, streamsBytes_snoc, ← stateBytes, hbytes0]

/-- **C1 witness.** -/
theorem splitter_size_bound_and_concat_witness :
    0 < 2 ∧
    ((split 2 ([[1, 2, 3]].map Frame.payload ++ [Frame.eofWithChecksum "c"])).2 =
      SplitResult.ok ∧
    (∀ p ∈ subStreams (split 2 ([[1, 2, 3]].map Frame.payload ++
        [Frame.eofWithChecksum "c"])).1, chunksLen p.2 ≤ 2) ∧
    outBytes (split 2 ([[1, 2, 3]].map Frame.payload ++
        [Frame.eofWithChecksum "c"])).1 = [[1, 2, 3]].flatten ∧
    ((subStreams (split 2 ([[1, 2, 3]].map Frame.payload ++
        [Frame.eofWithChecksum "c"])).1).map fun p => chunksLen p.2).sum =
      ([[1, 2, 3]] : List Buf).flatten.length) :=
  ⟨by decide, splitter_size_bound_and_concat 2 [[1, 2, 3]] "c" (by decide)⟩

theorem processPayload_of_le (M : Nat) (d : Buf) (s : SplitterState)
    (h : d.length ≤ M - s.streamSize) :
    processPayload M d s = some (if d.length = 0 then s else
      { s with
        cur := s.cur ++ [ChunkItem.ok d],
        streamSize := s.streamSize + d.length,
        offset := s.offset + d.length }) := by
  rw [processPayload]
  by_cases h0 : d.length = 0 <;> simp [h, h0]

/-- If the whole remaining payload still fits into the open sub-stream, the
payload loop never closes it: only the open sub-stream's chunk list and the
counters change. -/
theorem processPayloads_no_close (M : Nat) (ps : List Buf) (s : SplitterState)
    (h : s.streamSize + ps.flatten.length ≤ M) :
    ∃ cur', processPayloads M ps s = some
      { s with
        cur := cur',
        streamSize := s.streamSize + ps.flatten.length,
        offset := s.offset + ps.flatten.length } ∧
      chunksBytes cur' = chunksBytes s.cur ++ ps.flatten := by
  induction ps generalizing s with
  | nil =>
    refine ⟨s.cur, ?_, by simp⟩
    simp [processPayloads]
  | cons d ds ih =>
    have hd : d.length ≤ M - s.streamSize := by
      simp only [List.flatten_cons, List.length_append] at h
      omega
    by_cases h0 : d.length = 0
    · have hnil : d = [] := List.eq_nil_of_length_eq_zero h0
      obtain ⟨cur', hps, hcb⟩ := ih s (by
        simp only [List.flatten_cons, List.length_append] at h
        omega)
      refine ⟨cur', ?_, by simp [hcb, hnil]⟩
      simp only [processPayloads, processPayload_of_le M d s hd, if_pos h0]
      rw [hps]
      subst hnil
      simp
    · obtain ⟨cur', hps, hcb⟩ := ih
        { s with
          cur := s.cur ++ [ChunkItem.ok d],
          streamSize := s.streamSize + d.length,
          offset := s.offset + d.length } (by
        show s.streamSize + d.length + ds.flatten.length ≤ M
        simp only [List.flatten_cons, List.length_append] at h
        omega)
      refine ⟨cur', ?_, ?_⟩
      · simp only [processPayloads, processPayload_of_le M d s hd, if_neg h0]
        rw [hps]
        simp only [List.flatten_cons, List.length_append]
        congr 2 <;> first | rfl | omega
      · rw [hcb]
        show chunksBytes (s.cur ++ [ChunkItem.ok d]) ++ ds.flatten = _
        rw [chunksBytes_snoc_ok, List.append_assoc]
        rfl

/-- **C4.**  On `Eof(checksum)` after payload frames `ps`, the splitter
closes the current sub-stream, emits the terminal `EofWithChecksum` record
carrying the cumulative offset (the total payload byte count) and the
checksum after all payload sub-streams, and returns success; when the
payload totals exactly `M` bytes, exactly one sub-stream is emitted (opened
at offset 0 and filled to `M`) and the EOF record carries offset `M`. -/
theorem splitter_eof_terminal (M : Nat) (ps : List Buf) (ck : String)
    (hM : 0 < M) :
    (split M (ps.map Frame.payload ++ [Frame.eofWithChecksum ck])).2 =
      SplitResult.ok ∧
    (∃ subs, (split M (ps.map Frame.payload ++ [Frame.eofWithChecksum ck])).1 =
      toOutItems subs ++ [OutItem.eofRecord ps.flatten.length ck]) ∧
    (ps.flatten.length = M → ∃ cs, subStreams (split M (ps.map Frame.payload ++
        [Frame.eofWithChecksum ck])).1 = [(0, cs)] ∧ chunksLen cs = M) := by
  refine ⟨?_, ?_, ?_⟩
  · obtain ⟨s1, h1, _, _, _, _, _⟩ :=
      processPayloads_spec M hM ps initState (initState_inv M)
    rw [split, splitter_payloads M ps _ initState s1 h1]
    rfl
  · obtain ⟨s1, h1, _, hoff1, _, _, _⟩ :=
      processPayloads_spec M hM ps initState (initState_inv M)
    refine ⟨s1.streams ++ [(s1.curStart, s1.cur)], ?_⟩
    rw [split, splitter_payloads M ps _ initState s1 h1]
    have : s1.offset = ps.flatten.length := by
      rw [hoff1]
      simp [initState]
    rw [← this]
    rfl
  · intro hL
    obtain ⟨cur', hps, hcb⟩ := processPayloads_no_close M ps initState (by
      show 0 + ps.flatten.length ≤ M
      omega)
    rw [split, splitter_payloads M ps _ initState _ hps]
    refine ⟨cur', ?_, ?_⟩
    · simp [splitter, subStreams_append_eofRecord, subStreams_toOutItems, initState]
    · rw [chunksLen_eq_length, hcb]
      show (ps.flatten).length = M
      exact hL

/-- **C4 witness.** -/
theorem splitter_eof_terminal_witness :
    0 < 3 ∧
    ((split 3 ([[1, 2], [3]].map Frame.payload ++ [Frame.eofWithChecksum "k"])).2 =
      SplitResult.ok ∧
    (∃ subs, (split 3 ([[1, 2], [3]].map Frame.payload ++
        [Frame.eofWithChecksum "k"])).1 =
      toOutItems subs ++ [OutItem.eofRecord
        ([[1, 2], [3]] : List Buf).flatten.length "k"]) ∧
    (([[1, 2], [3]] : List Buf).flatten.length = 3 →
      ∃ cs, subStreams (split 3 ([[1, 2], [3]].map Frame.payload ++
        [Frame.eofWithChecksum "k"])).1 = [(0, cs)] ∧ chunksLen cs = 3)) :=
  ⟨by decide, splitter_eof_terminal 3 [[1, 2], [3]] "k" (by decide)⟩

/-- **C5.**  On an error frame after payload frames `ps`, the splitter
forwards the error as a terminal error item into the current sub-stream's
channel and returns success when the error frame is the last input item;
the drain of one further input item is an assertion, so any additional
frame after the error makes the splitter thread panic instead. -/
theorem splitter_error_forwarding (M : Nat) (ps : List Buf) (e : String)
    (hM : 0 < M) :
    (split M (ps.map Frame.payload ++ [Frame.error e])).2 = SplitResult.ok ∧
    (∃ subs st cs, (split M (ps.map Frame.payload ++ [Frame.error e])).1 =
      toOutItems subs ++ [OutItem.stream st (cs ++ [ChunkItem.err e])]) ∧
    (∀ f rest, (split M (ps.map Frame.payload ++ Frame.error e :: f :: rest)).2 =
      SplitResult.panicked) := by
  obtain ⟨s1, h1, _, _, _, _, _⟩ :=
    processPayloads_spec M hM ps initState (initState_inv M)
  refine ⟨?_, ?_, ?_⟩
  · rw [split, splitter_payloads M ps _ initState s1 h1]
    rfl
  · refine ⟨s1.streams, s1.curStart, s1.cur, ?_⟩
    rw [split, splitter_payloads M ps _ initState s1 h1]
    show toOutItems (s1.streams ++ [(s1.curStart, s1.cur ++ [ChunkItem.err e])]) = _
    rw [toOutItems_append]
    rfl
  · intro f rest
    rw [split, splitter_payloads M ps (Frame.error e :: f :: rest) initState s1 h1]
    rfl

/-- **C5 witness.** -/
theorem splitter_error_forwarding_witness :
    0 < 2 ∧
    ((split 2 ([[5]].map Frame.payload ++ [Frame.error "boom"])).2 =
      SplitResult.ok ∧
    (∃ subs st cs, (split 2 ([[5]].map Frame.payload ++ [Frame.error "boom"])).1 =
      toOutItems subs ++ [OutItem.stream st (cs ++ [ChunkItem.err "boom"])]) ∧
    (∀ f rest, (split 2 ([[5]].map Frame.payload ++
        Frame.error "boom" :: f :: rest)).2 = SplitResult.panicked)) :=
  ⟨by decide, splitter_error_forwarding 2 [[5]] "boom" (by decide)⟩

/-- **C10.**  If the input channel closes without an EOF or error frame,
the splitter returns success and emits no terminal record at all: the
output is just the sub-streams (at least the initial one, opened at
offset 0). -/
theorem splitter_silent_end (M : Nat) (ps : List Buf) (hM : 0 < M) :
    (split M (ps.map Frame.payload)).2 = SplitResult.ok ∧
    (∃ subs, (split M (ps.map Frame.payload)).1 = toOutItems subs) ∧
    (∃ cs, ((split M (ps.map Frame.payload)).1).head? =
      some (OutItem.stream 0 cs)) := by
  obtain ⟨s1, h1, hinv1, _, _, _, _⟩ :=
    processPayloads_spec M hM ps initState (initState_inv M)
  have hrun : split M (ps.map Frame.payload) =
      (toOutItems (s1.streams ++ [(s1.curStart, s1.cur)]), SplitResult.ok) := by
    rw [split, show ps.map Frame.payload = ps.map Frame.payload ++ [] from by simp,
      splitter_payloads M ps [] initState s1 h1]
    rfl
  refine ⟨by rw [hrun], ⟨_, by rw [hrun]⟩, ?_⟩
  rcases hst : s1.streams with _ | ⟨p, rest⟩
  · have hcs : s1.curStart = 0 := by
      have := hinv1.chained
      rw [hst] at this
      exact this.symm
    refine ⟨s1.cur, ?_⟩
    rw [hrun, hst, hcs]
    rfl
  · have hp : p.1 = 0 := by
      have := hinv1.chained
      rw [hst] at this
      exact this.1
    refine ⟨p.2, ?_⟩
    rw [hrun, hst]
    simp [toOutItems, ← hp]

/-- **C10 witness.** -/
theorem splitter_silent_end_witness :
    0 < 2 ∧
    ((split 2 ([[9, 9, 9]].map Frame.payload)).2 = SplitResult.ok ∧
    (∃ subs, (split 2 ([[9, 9, 9]].map Frame.payload)).1 = toOutItems subs) ∧
    (∃ cs, ((split 2 ([[9, 9, 9]].map Frame.payload)).1).head? =
      some (OutItem.stream 0 cs))) :=
  ⟨by decide, splitter_silent_end 2 [[9, 9, 9]] (by decide)⟩

end StreamSplitter

/-!
The sync planner (`src/sync.rs`).  `BackupGroups` is a
`BTreeMap<String, BTreeSet<String>>`; group and backup names are opaque,
linearly ordered strings (spec §3), modelled by an arbitrary linear order.
A `BTreeSet` is a strictly sorted list, a `BTreeMap` a list of entries with
strictly sorted keys.
-/

namespace SyncPlanner

section Planner

variable {α : Type} [LinearOrder α]

/-- `BTreeSet::insert`. -/
def setInsert (x : α) : List α → List α
  | [] => [x]
  | y :: ys =>
    if x < y then x :: y :: ys
    else if x = y then y :: ys
    else y :: setInsert x ys

/-- `BTreeSet::extend`: insert every element of `b`. -/
def setExtend (a b : List α) : List α :=
  b.foldl (fun acc x => setInsert x acc) a

/-- `target_groups.entry(k).or_insert_with(Backups::new).extend(bs)`:
insert `k` with an empty set if absent, then extend its set by `bs`. -/
def mapEntryExtend (k : α) (bs : List α) :
    List (α × List α) → List (α × List α)
  | [] => [(k, setExtend [] bs)]
  | (k', v) :: rest =>
    if k < k' then (k, setExtend [] bs) :: (k', v) :: rest
    else if k = k' then (k', setExtend v bs) :: rest
    else (k', v) :: mapEntryExtend k bs rest

/-- The union loop of `get_target_backup_groups`: start from the local
groups and extend with every cloud entry. -/
def unionGroups (localGroups cloudGroups : List (α × List α)) :
    List (α × List α) :=
  cloudGroups.foldl (fun acc p => mapEntryExtend p.1 p.2 acc) localGroups

/-- The descending scan for `first_group_name`: skip empty groups, count
non-empty ones, and yield the key at which the running count reaches the
cap (`groups_num >= max_groups`). -/
def findCut (K : Nat) : Nat → List (α × List α) → Option α
  | _, [] => none
  | n, (k, bs) :: rest =>
    if bs.isEmpty then findCut K n rest
    else if K ≤ n + 1 then some k
    else findCut K (n + 1) rest

/-- `BTreeMap::split_off(&k)` as assigned back to the map: the entries with
keys `≥ k` (the argument map being sorted by key). -/
def splitOffGE (k : α) (l : List (α × List α)) : List (α × List α) :=
  l.dropWhile fun p => p.1 < k

/-- `get_target_backup_groups` of `src/sync.rs`. -/
def get_target_backup_groups (localGroups cloudGroups : List (α × List α))
    (maxGroups : Nat) : List (α × List α) :=
  let target := unionGroups localGroups cloudGroups
  if maxGroups < target.length then
    match findCut maxGroups 0 target.reverse with
    | some k => splitOffGE k target
    | none => target
  else target

/-- Plain association-list lookup (keys of a well-formed map are unique). -/
def lookupG (k : α) : List (α × List α) → Option (List α)
  | [] => none
  | (k', v) :: rest => if k = k' then some v else lookupG k rest

/-- The entries whose backup set is non-empty, in ascending key order. -/
def nonEmptyGroups (l : List (α × List α)) : List (α × List α) :=
  l.filter fun p => !p.2.isEmpty

/-- Well-formedness of a `BTreeSet` model: strictly ascending. -/
abbrev SetWF (l : List α) : Prop := l.Pairwise (· < ·)

/-- Well-formedness of a `BTreeMap` model: strictly ascending keys and
well-formed value sets. -/
abbrev GroupsWF (l : List (α × List α)) : Prop :=
  l.Pairwise (fun p q => p.1 < q.1) ∧ ∀ p ∈ l, SetWF p.2

theorem setInsert_mem (x y : α) (l : List α) :
    y ∈ setInsert x l ↔ y = x ∨ y ∈ l := by
  induction l with
  | nil => simp [setInsert]
  | cons z zs ih =>
    by_cases h1 : x < z
    · simp [setInsert, h1]
    · by_cases h2 : x = z
      · simp only [setInsert, if_neg h1, if_pos h2, List.mem_cons]
        subst h2
        tauto
      · simp only [setInsert, if_neg h1, if_neg h2, List.mem_cons, ih]
        tauto

theorem setInsert_wf (x : α) (l : List α) (h : SetWF l) :
    SetWF (setInsert x l) := by
  induction l with
  | nil => simp [setInsert, SetWF]
  | cons z zs ih =>
    rcases List.pairwise_cons.mp h with ⟨hz, hzs⟩
    by_cases h1 : x < z
    · simp only [setInsert, if_pos h1]
      refine List.pairwise_cons.mpr ⟨?_, h⟩
      intro y hy
      rcases List.mem_cons.mp hy with h | h
      · exact h ▸ h1
      · exact lt_trans h1 (hz y h)
    · by_cases h2 : x = z
      · simpa [setInsert, if_neg h1, h2] using h
      · have hzx : z < x := by
          rcases lt_trichotomy x z with h | h | h
          · exact absurd h h1
          · exact absurd h h2
          · exact h
        simp only [setInsert, if_neg h1, if_neg h2]
        refine List.pairwise_cons.mpr ⟨?_, ih hzs⟩
        intro y hy
        rcases (setInsert_mem x y zs).mp hy with h | h
        · exact h ▸ hzx
        · exact hz y h

theorem setInsert_no_op (x : α) (l : List α) (h : SetWF l) (hx : x ∈ l) :
    setInsert x l = l := by
  induction l with
  | nil => cases hx
  | cons z zs ih =>
    rcases List.pairwise_cons.mp h with ⟨hz, hzs⟩
    rcases List.mem_cons.mp hx with h1 | h1
    · subst h1
      simp [setInsert]
    · have hzx : z < x := hz x h1
      have h2 : ¬x < z := not_lt_of_gt hzx
      have h3 : ¬x = z := fun he => absurd (he ▸ hzx) (lt_irrefl x)
      simp only [setInsert, if_neg h2, if_neg h3]
      rw [ih hzs h1]

theorem setInsert_gt_append (x : α) (l : List α) (h : ∀ y ∈ l, y < x) :
    setInsert x l = l ++ [x] := by
  induction l with
  | nil => rfl
  | cons z zs ih =>
    have hzx : z < x := h z (List.mem_cons_self z zs)
    have h2 : ¬x < z := not_lt_of_gt hzx
    have h3 : ¬x = z := fun he => absurd (he ▸ hzx) (lt_irrefl x)
    simp only [setInsert, if_neg h2, if_neg h3, List.cons_append]
    rw [ih fun y hy => h y (List.mem_cons_of_mem z hy)]

theorem setExtend_mem (a b : List α) (y : α) :
    y ∈ setExtend a b ↔ y ∈ a ∨ y ∈ b := by
  induction b generalizing a with
  | nil => simp [setExtend]
  | cons x xs ih =>
    show y ∈ setExtend (setInsert x a) xs ↔ _
    rw [ih, setInsert_mem]
    simp only [List.mem_cons]
    tauto

theorem setExtend_wf (a b : List α) (h : SetWF a) : SetWF (setExtend a b) := by
  induction b generalizing a with
  | nil => exact h
  | cons x xs ih => exact ih _ (setInsert_wf x a h)

theorem setExtend_sorted_append (b a : List α)
    (h : (a ++ b).Pairwise (· < ·)) : setExtend a b = a ++ b := by
  induction b generalizing a with
  | nil => simp [setExtend]
  | cons x xs ih =>
    have hins : setInsert x a = a ++ [x] := by
      refine setInsert_gt_append x a fun y hy => ?_
      exact (List.pairwise_append.mp h).2.2 y hy x (List.mem_cons_self x xs)
    show setExtend (setInsert x a) xs = _
    rw [hins, ih (a ++ [x]) (by simpa using h)]
    simp

theorem setExtend_nil_eq (b : List α) (h : SetWF b) : setExtend [] b = b :=
  setExtend_sorted_append b [] (by simpa using h)

theorem setExtend_subset_no_op (a b : List α) (h : SetWF a)
    (hsub : ∀ x ∈ b, x ∈ a) : setExtend a b = a := by
  induction b generalizing a with
  | nil => rfl
  | cons x xs ih =>
    show setExtend (setInsert x a) xs = a
    rw [setInsert_no_op x a h (hsub x (List.mem_cons_self x xs))]
    exact ih a h fun y hy => hsub y (List.mem_cons_of_mem x hy)

theorem mapEntryExtend_mem_key (k : α) (bs : List α) (m : List (α × List α))
    (y : α) (hy : y ∈ (mapEntryExtend k bs m).map Prod.fst) :
    y = k ∨ y ∈ m.map Prod.fst := by
  induction m with
  | nil =>
    simp [mapEntryExtend] at hy
    exact Or.inl hy
  | cons p rest ih =>
    obtain ⟨k', v⟩ := p
    by_cases h1 : k < k'
    · simp only [mapEntryExtend, if_pos h1, List.map_cons, List.mem_cons] at hy ⊢
      tauto
    · by_cases h2 : k = k'
      · simp only [mapEntryExtend, if_neg h1, if_pos h2, List.map_cons,
          List.mem_cons] at hy ⊢
        tauto
      · simp only [mapEntryExtend, if_neg h1, if_neg h2, List.map_cons,
          List.mem_cons] at hy ⊢
        rcases hy with h | h
        · tauto
        · rcases ih h with h | h <;> tauto

theorem mapEntryExtend_wf (k : α) (bs : List α) (m : List (α × List α))
    (h : GroupsWF m) : GroupsWF (mapEntryExtend k bs m) := by
  induction m with
  | nil =>
    refine ⟨by simp [mapEntryExtend], ?_⟩
    intro p hp
    simp only [mapEntryExtend, List.mem_singleton] at hp
    subst hp
    exact setExtend_wf [] bs (by simp [SetWF])
  | cons q rest ih =>
    obtain ⟨k', v⟩ := q
    obtain ⟨hpair, hvals⟩ := h
    rcases List.pairwise_cons.mp hpair with ⟨hk', hrest⟩
    have hrestwf : GroupsWF rest :=
      ⟨hrest, fun p hp => hvals p (List.mem_cons_of_mem _ hp)⟩
    by_cases h1 : k < k'
    · refine ⟨?_, ?_⟩
      · simp only [mapEntryExtend, if_pos h1]
        refine List.pairwise_cons.mpr ⟨?_, hpair⟩
        intro q hq
        rcases List.mem_cons.mp hq with h | h
        · exact h ▸ h1
        · exact lt_trans h1 (hk' q h)
      · intro p hp
        simp only [mapEntryExtend, if_pos h1, List.mem_cons] at hp
        rcases hp with h | h | h
        · subst h
          exact setExtend_wf [] bs (by simp [SetWF])
        · subst h
          exact hvals (k', v) (List.mem_cons_self _ _)
        · exact hvals p (List.mem_cons_of_mem _ h)
    · by_cases h2 : k = k'
      · refine ⟨?_, ?_⟩
        · simp only [mapEntryExtend, if_neg h1, if_pos h2]
          exact List.pairwise_cons.mpr ⟨hk', hrest⟩
        · intro p hp
          simp only [mapEntryExtend, if_neg h1, if_pos h2, List.mem_cons] at hp
          rcases hp with h | h
          · subst h
            exact setExtend_wf v bs (hvals (k', v) (List.mem_cons_self _ _))
          · exact hvals p (List.mem_cons_of_mem _ h)
      · refine ⟨?_, ?_⟩
        · simp only [mapEntryExtend, if_neg h1, if_neg h2]
          refine List.pairwise_cons.mpr ⟨?_, (ih hrestwf).1⟩
          intro q hq
          have hq1 := mapEntryExtend_mem_key k bs rest q.1
            (List.mem_map_of_mem Prod.fst hq)
          have hk'k : k' < k := by
            rcases lt_trichotomy k k' with h | h | h
            · exact absurd h h1
            · exact absurd h h2
            · exact h
          rcases hq1 with h | h
          · exact h ▸ hk'k
          · simp only [List.mem_map] at h
            obtain ⟨q', hq', he⟩ := h
            exact he ▸ hk' q' hq'
        · intro p hp
          simp only [mapEntryExtend, if_neg h1, if_neg h2, List.mem_cons] at hp
          rcases hp with h | h
          · subst h
            exact hvals (k', v) (List.mem_cons_self _ _)
          · exact (ih hrestwf).2 p h

theorem unionGroups_wf (localG cloudG : List (α × List α))
    (hl : GroupsWF localG) : GroupsWF (unionGroups localG cloudG) := by
  induction cloudG generalizing localG with
  | nil => exact hl
  | cons p rest ih =>
    exact ih (mapEntryExtend p.1 p.2 localG) (mapEntryExtend_wf p.1 p.2 localG hl)

theorem lookupG_eq_none (k : α) (m : List (α × List α))
    (h : ∀ p ∈ m, k ≠ p.1) : lookupG k m = none := by
  induction m with
  | nil => rfl
  | cons p rest ih =>
    obtain ⟨k', v⟩ := p
    have hne : k ≠ k' := h (k', v) (List.mem_cons_self _ _)
    simp only [lookupG, if_neg hne]
    exact ih fun q hq => h q (List.mem_cons_of_mem _ hq)

theorem lookupG_mapEntryExtend_self (k : α) (bs : List α)
    (m : List (α × List α)) (hpair : m.Pairwise fun p q => p.1 < q.1) :
    lookupG k (mapEntryExtend k bs m) =
      some (setExtend ((lookupG k m).getD []) bs) := by
  induction m with
  | nil => simp [mapEntryExtend, lookupG]
  | cons p rest ih =>
    obtain ⟨k', v⟩ := p
    rcases List.pairwise_cons.mp hpair with ⟨hk', hrest⟩
    by_cases h1 : k < k'
    · have hne : k ≠ k' := ne_of_lt h1
      have hnone : lookupG k rest = none := by
        refine lookupG_eq_none k rest fun q hq => ?_
        intro he
        have hq1 := hk' q hq
        rw [← he] at hq1
        exact absurd hq1 (lt_asymm h1)
      simp [mapEntryExtend, if_pos h1, lookupG, hne, hnone]
    · by_cases h2 : k = k'
      · simp [mapEntryExtend, if_neg h1, if_pos h2, lookupG, h2]
      · simp only [mapEntryExtend, if_neg h1, if_neg h2, lookupG, ih hrest]

theorem lookupG_mapEntryExtend_other (k k₀ : α) (bs : List α)
    (m : List (α × List α)) (hne : k₀ ≠ k) :
    lookupG k₀ (mapEntryExtend k bs m) = lookupG k₀ m := by
  induction m with
  | nil => simp [mapEntryExtend, lookupG, hne]
  | cons p rest ih =>
    obtain ⟨k', v⟩ := p
    by_cases h1 : k < k'
    · simp [mapEntryExtend, if_pos h1, lookupG, hne]
    · by_cases h2 : k = k'
      · subst h2
        simp [mapEntryExtend, if_neg h1, lookupG, hne]
      · by_cases h3 : k₀ = k'
        · simp [mapEntryExtend, if_neg h1, if_neg h2, lookupG, h3]
        · simp [mapEntryExtend, if_neg h1, if_neg h2, lookupG, h3, ih]

theorem lookupG_of_mem (k : α) (v : List α) (m : List (α × List α))
    (hpair : m.Pairwise fun p q => p.1 < q.1) (hmem : (k, v) ∈ m) :
    lookupG k m = some v := by
  induction m with
  | nil => cases hmem
  | cons p rest ih =>
    obtain ⟨k', v'⟩ := p
    rcases List.pairwise_cons.mp hpair with ⟨hk', hrest⟩
    rcases List.mem_cons.mp hmem with h | h
    · injection h with he1 he2
      subst he1
      subst he2
      simp [lookupG]
    · have hne : k ≠ k' := by
        intro he
        subst he
        exact absurd (hk' (k, v) h) (lt_irrefl k)
      simp only [lookupG, if_neg hne]
      exact ih hrest h

/-- Per-key semantics of the union loop: each key's backup set is the local
set extended by the cloud set (both maps being well-formed). -/
theorem lookupG_unionGroups (localG cloudG : List (α × List α))
    (hl : GroupsWF localG) (hc : GroupsWF cloudG) (k : α) :
    lookupG k (unionGroups localG cloudG) =
      match lookupG k localG, lookupG k cloudG with
      | none, none => none
      | some a, none => some a
      | none, some b => some (setExtend [] b)
      | some a, some b => some (setExtend a b) := by
  induction cloudG generalizing localG with
  | nil =>
    simp only [unionGroups, List.foldl_nil, lookupG]
    rcases lookupG k localG with _ | a <;> rfl
  | cons p rest ih =>
    obtain ⟨k₀, bs⟩ := p
    obtain ⟨hpair, hvals⟩ := hc
    rcases List.pairwise_cons.mp hpair with ⟨hk₀, hrest⟩
    have hrestwf : GroupsWF rest :=
      ⟨hrest, fun q hq => hvals q (List.mem_cons_of_mem _ hq)⟩
    show lookupG k (unionGroups (mapEntryExtend k₀ bs localG) rest) = _
    rw [ih (mapEntryExtend k₀ bs localG) (mapEntryExtend_wf k₀ bs localG hl)
      hrestwf]
    by_cases hk : k = k₀
    · subst hk
      have hnone : lookupG k rest = none := by
        refine lookupG_eq_none k rest fun q hq => ?_
        intro he
        have hq1 := hk₀ q hq
        rw [← he] at hq1
        exact absurd hq1 (lt_irrefl k)
      rw [hnone, lookupG_mapEntryExtend_self k bs localG hl.1]
      simp only [lookupG, if_pos rfl]
      rcases h9 : lookupG k localG with _ | a <;> simp [h9]
    · rw [lookupG_mapEntryExtend_other k₀ k bs localG hk]
      simp only [lookupG, if_neg hk]

theorem nonEmptyGroups_append (a b : List (α × List α)) :
    nonEmptyGroups (a ++ b) = nonEmptyGroups a ++ nonEmptyGroups b := by
  simp [nonEmptyGroups]

theorem nonEmptyGroups_reverse (l : List (α × List α)) :
    nonEmptyGroups l.reverse = (nonEmptyGroups l).reverse := by
  simp [nonEmptyGroups, List.filter_reverse]

/-- A successful descending scan decomposes the scanned list: the cut key
is preceded by exactly `K - n - 1` non-empty entries and is itself
non-empty. -/
theorem findCut_some (K : Nat) (k : α) :
    ∀ (l : List (α × List α)) (n : Nat), n < K → findCut K n l = some k →
    ∃ pre bs post, l = pre ++ (k, bs) :: post ∧ bs ≠ [] ∧
      (nonEmptyGroups pre).length + n + 1 = K := by
  intro l
  induction l with
  | nil => intro n _ h; cases h
  | cons p rest ih =>
    intro n hn h
    obtain ⟨k₀, bs₀⟩ := p
    by_cases he : bs₀.isEmpty
    · rw [findCut, if_pos he] at h
      obtain ⟨pre, bs, post, hl, hbs, hcount⟩ := ih n hn h
      refine ⟨(k₀, bs₀) :: pre, bs, post, by rw [hl]; rfl, hbs, ?_⟩
      have : nonEmptyGroups ((k₀, bs₀) :: pre) = nonEmptyGroups pre := by
        simp [nonEmptyGroups, he]
      rw [this]
      exact hcount
    · by_cases hK : K ≤ n + 1
      · rw [findCut, if_neg he, if_pos hK] at h
        injection h with h
        subst h
        refine ⟨[], bs₀, rest, rfl, ?_, ?_⟩
        · intro hnil
          rw [hnil] at he
          exact he rfl
        · have : nonEmptyGroups ([] : List (α × List α)) = [] := rfl
          rw [this]
          simp only [List.length_nil]
          omega
      · rw [findCut, if_neg he, if_neg hK] at h
        obtain ⟨pre, bs, post, hl, hbs, hcount⟩ := ih (n + 1) (by omega) h
        refine ⟨(k₀, bs₀) :: pre, bs, post, by rw [hl]; rfl, hbs, ?_⟩
        have : nonEmptyGroups ((k₀, bs₀) :: pre) =
            (k₀, bs₀) :: nonEmptyGroups pre := by
          simp [nonEmptyGroups, he]
        rw [this]
        simp only [List.length_cons]
        omega

/-- A failed descending scan means fewer than `K - n` non-empty entries. -/
theorem findCut_none (K : Nat) :
    ∀ (l : List (α × List α)) (n : Nat), n < K → findCut K n l = none →
    n + (nonEmptyGroups l).length < K := by
  intro l
  induction l with
  | nil =>
    intro n hn _
    simpa [nonEmptyGroups] using hn
  | cons p rest ih =>
    intro n hn h
    obtain ⟨k₀, bs₀⟩ := p
    by_cases he : bs₀.isEmpty
    · rw [findCut, if_pos he] at h
      have := ih n hn h
      have hne : nonEmptyGroups ((k₀, bs₀) :: rest) = nonEmptyGroups rest := by
        simp [nonEmptyGroups, he]
      rw [hne]
      exact this
    · by_cases hK : K ≤ n + 1
      · rw [findCut, if_neg he, if_pos hK] at h
        cases h
      · rw [findCut, if_neg he, if_neg hK] at h
        have := ih (n + 1) (by omega) h
        have hne : nonEmptyGroups ((k₀, bs₀) :: rest) =
            (k₀, bs₀) :: nonEmptyGroups rest := by
          simp [nonEmptyGroups, he]
        rw [hne]
        simp only [List.length_cons]
        omega

/-- Scanning past a block with too few non-empty entries to fire. -/
theorem findCut_append (K : Nat) :
    ∀ (l l' : List (α × List α)) (n : Nat),
    n + (nonEmptyGroups l).length < K →
    findCut K n (l ++ l') = findCut K (n + (nonEmptyGroups l).length) l' := by
  intro l
  induction l with
  | nil =>
    intro l' n _
    simp [nonEmptyGroups]
  | cons p rest ih =>
    intro l' n hlt
    obtain ⟨k₀, bs₀⟩ := p
    by_cases he : bs₀.isEmpty
    · have hne : nonEmptyGroups ((k₀, bs₀) :: rest) = nonEmptyGroups rest := by
        simp [nonEmptyGroups, he]
      rw [hne] at hlt ⊢
      rw [List.cons_append, findCut, if_pos he]
      exact ih l' n hlt
    · have hne : nonEmptyGroups ((k₀, bs₀) :: rest) =
          (k₀, bs₀) :: nonEmptyGroups rest := by
        simp [nonEmptyGroups, he]
      rw [hne] at hlt ⊢
      simp only [List.length_cons] at hlt
      have hK : ¬K ≤ n + 1 := by omega
      rw [List.cons_append, findCut, if_neg he, if_neg hK]
      rw [ih l' (n + 1) (by omega)]
      congr 1
      simp only [List.length_cons]
      omega

theorem splitOffGE_decompose (k : α) (bs : List α)
    (x y : List (α × List α)) (hx : ∀ p ∈ x, p.1 < k) :
    splitOffGE k (x ++ (k, bs) :: y) = (k, bs) :: y := by
  have hnil : (x.dropWhile fun p => p.1 < k) = [] :=
    List.dropWhile_eq_nil_iff.mpr fun p hp => by
      simp only [decide_eq_true_eq]
      exact hx p hp
  rw [splitOffGE, List.dropWhile_append, hnil]
  simp only [List.isEmpty_nil, if_pos rfl, List.dropWhile_cons]
  simp

theorem splitOffGE_suffix (k : α) (l : List (α × List α)) :
    (splitOffGE k l).IsSuffix l := by
  rw [splitOffGE]
  induction l with
  | nil => exact List.nil_suffix
  | cons p rest ih =>
    by_cases h : p.1 < k
    · rw [List.dropWhile_cons]
      simp only [h, decide_eq_true_eq, if_pos]
      exact ih.trans (List.suffix_cons p rest)
    · rw [List.dropWhile_cons]
      simp only [h, decide_eq_true_eq, if_neg, reduceIte]
      exact List.suffix_refl _

theorem get_target_of_within_cap (localG cloudG : List (α × List α)) (K : Nat)
    (h : ¬K < (unionGroups localG cloudG).length) :
    get_target_backup_groups localG cloudG K = unionGroups localG cloudG := by
  simp only [get_target_backup_groups, if_neg h]

/-- **C3.**  The planner's target computation returns the per-key union of
the local and cloud groups (key present iff present on either side; a
backup in a key's set iff it is in that key's set on either side), the
result is always a suffix (a tail of newest keys) of the union, nothing is
dropped while the union is within the cap, and the non-empty groups
retained are exactly the `K` lexicographically greatest non-empty groups of
the union (all of them when fewer than `K` exist); `K > 0` as the
configuration requires.  Empty groups never count toward the cap: the cut
is computed over non-empty groups only. -/
theorem get_target_backup_groups_spec (localG cloudG : List (α × List α))
    (K : Nat) (hl : GroupsWF localG) (hc : GroupsWF cloudG) (hK : 0 < K) :
    (get_target_backup_groups localG cloudG K).IsSuffix
      (unionGroups localG cloudG) ∧
    (∀ k, (lookupG k (unionGroups localG cloudG)).isSome ↔
      ((lookupG k localG).isSome ∨ (lookupG k cloudG).isSome)) ∧
    (∀ k y, (∃ bs, lookupG k (unionGroups localG cloudG) = some bs ∧ y ∈ bs) ↔
      ((∃ bs, lookupG k localG = some bs ∧ y ∈ bs) ∨
       (∃ bs, lookupG k cloudG = some bs ∧ y ∈ bs))) ∧
    ((unionGroups localG cloudG).length ≤ K →
      get_target_backup_groups localG cloudG K = unionGroups localG cloudG) ∧
    nonEmptyGroups (get_target_backup_groups localG cloudG K) =
      (nonEmptyGroups (unionGroups localG cloudG)).drop
        ((nonEmptyGroups (unionGroups localG cloudG)).length - K) := by
  refine ⟨?_, ?_, ?_, ?_, ?_⟩
  · by_cases hlen : K < (unionGroups localG cloudG).length
    · simp only [get_target_backup_groups, if_pos hlen]
      rcases hfc : findCut K 0 (unionGroups localG cloudG).reverse with _ | k
    
      · exact List.suffix_refl _
      · exact splitOffGE_suffix k _
    · rw [get_target_of_within_cap localG cloudG K hlen]
  · intro k
    rw [lookupG_unionGroups localG cloudG hl hc k]
    rcases lookupG k localG with _ | a <;> rcases lookupG k cloudG with _ | b <;>
      simp
  · intro k y
    rw [lookupG_unionGroups localG cloudG hl hc k]
    rcases lookupG k localG with _ | a <;> rcases lookupG k cloudG with _ | b <;>
      simp [setExtend_mem]
  · intro hle
    exact get_target_of_within_cap localG cloudG K (by omega)
  · by_cases hlen : K < (unionGroups localG cloudG).length
    · simp only [get_target_backup_groups, if_pos hlen]
      rcases hfc : findCut K 0 (unionGroups localG cloudG).reverse with _ | k
      · have hcnt := findCut_none K (unionGroups localG cloudG).reverse 0 hK hfc
        rw [nonEmptyGroups_reverse, List.length_reverse] at hcnt
        have : (nonEmptyGroups (unionGroups localG cloudG)).length - K = 0 := by
          omega
        rw [this, List.drop_zero]
      · obtain ⟨pre, bs, post, hdec, hbs, hcnt⟩ :=
          findCut_some K k (unionGroups localG cloudG).reverse 0 hK hfc
        have hU : unionGroups localG cloudG =
            post.reverse ++ (k, bs) :: pre.reverse := by
          have := congrArg List.reverse hdec
          rw [List.reverse_reverse] at this
          rw [this]
          simp
        have hUpair := (unionGroups_wf localG cloudG hl).1
        have hx : ∀ p ∈ post.reverse, p.1 < k := by
          rw [hU] at hUpair
          intro p hp
          exact (List.pairwise_append.mp hUpair).2.2 p hp (k, bs)
            (List.mem_cons_self _ _)
        rw [hU]
        show nonEmptyGroups
          (splitOffGE k (post.reverse ++ (k, bs) :: pre.reverse)) = _
        rw [splitOffGE_decompose k bs post.reverse pre.reverse hx]
        have hbs' : bs.isEmpty = false := by
          rcases bs with _ | _
          · exact absurd rfl hbs
          · rfl
        have hNEcons : nonEmptyGroups ((k, bs) :: pre.reverse) =
            (k, bs) :: nonEmptyGroups pre.reverse := by
          simp [nonEmptyGroups, hbs']
        have hNEU : nonEmptyGroups (post.reverse ++ (k, bs) :: pre.reverse) =
            nonEmptyGroups post.reverse ++
              (k, bs) :: nonEmptyGroups pre.reverse := by
          rw [nonEmptyGroups_append, hNEcons]
        rw [hNEcons, hNEU]
        have hny : (nonEmptyGroups pre.reverse).length =
            (nonEmptyGroups pre).length := by
          rw [nonEmptyGroups_reverse, List.length_reverse]
        have hdropn : (nonEmptyGroups post.reverse ++
              (k, bs) :: nonEmptyGroups pre.reverse).length - K =
            (nonEmptyGroups post.reverse).length := by
          simp only [List.length_append, List.length_cons, hny]
          omega
        rw [hdropn, List.drop_left]
    · have hlenle : (unionGroups localG cloudG).length ≤ K := by omega
      rw [get_target_of_within_cap localG cloudG K hlen]
      have hle := List.length_filter_le
        (fun p : α × List α => !p.2.isEmpty) (unionGroups localG cloudG)
      have : (nonEmptyGroups (unionGroups localG cloudG)).length - K = 0 := by
        simp only [nonEmptyGroups] at hle ⊢
        omega
      rw [this, List.drop_zero]

/-- **C3 witness** (spec §8 scenario 3 with names mapped to numbers:
g1,g2,g3 ↦ 1,2,3 and b1,b2 ↦ 1,2). -/
theorem get_target_backup_groups_spec_witness :
    GroupsWF [(1, [1, 2]), (3, [1])] ∧ GroupsWF [(2, [1])] ∧ 0 < 2 ∧
    ((get_target_backup_groups [(1, [1, 2]), (3, [1])] [(2, [1])] 2).IsSuffix
      (unionGroups [(1, [1, 2]), (3, [1])] [(2, [1])]) ∧
    (∀ k, (lookupG k (unionGroups [(1, [1, 2]), (3, [1])] [(2, [1])])).isSome ↔
      ((lookupG k [(1, [1, 2]), (3, [1])]).isSome ∨
       (lookupG k [(2, [1])]).isSome)) ∧
    (∀ k y, (∃ bs, lookupG k (unionGroups [(1, [1, 2]), (3, [1])] [(2, [1])]) =
        some bs ∧ y ∈ bs) ↔
      ((∃ bs, lookupG k [(1, [1, 2]), (3, [1])] = some bs ∧ y ∈ bs) ∨
       (∃ bs, lookupG k [(2, [1])] = some bs ∧ y ∈ bs))) ∧
    ((unionGroups [(1, [1, 2]), (3, [1])] [(2, [1])]).length ≤ 2 →
      get_target_backup_groups [(1, [1, 2]), (3, [1])] [(2, [1])] 2 =
        unionGroups [(1, [1, 2]), (3, [1])] [(2, [1])]) ∧
    nonEmptyGroups (get_target_backup_groups [(1, [1, 2]), (3, [1])]
        [(2, [1])] 2) =
      (nonEmptyGroups (unionGroups [(1, [1, 2]), (3, [1])] [(2, [1])])).drop
        ((nonEmptyGroups (unionGroups [(1, [1, 2]), (3, [1])]
          [(2, [1])])).length - 2)) :=
  ⟨by decide, by decide, by decide,
    get_target_backup_groups_spec [(1, [1, 2]), (3, [1])] [(2, [1])] 2
      (by decide) (by decide) (by decide)⟩

theorem mapEntryExtend_no_op (k : α) (bs v : List α) (m : List (α × List α))
    (hpair : m.Pairwise fun p q => p.1 < q.1)
    (hv : lookupG k m = some v) (hbs : setExtend v bs = v) :
    mapEntryExtend k bs m = m := by
  induction m with
  | nil => cases hv
  | cons p rest ih =>
    obtain ⟨k', v'⟩ := p
    rcases List.pairwise_cons.mp hpair with ⟨hk', hrest⟩
    by_cases h2 : k = k'
    · subst h2
      rw [lookupG, if_pos rfl] at hv
      injection hv with hv
      subst hv
      simp [mapEntryExtend, hbs]
    · have hlk : lookupG k rest = some v := by
        rw [lookupG, if_neg h2] at hv
        exact hv
      by_cases h1 : k < k'
      · exfalso
        have : lookupG k rest = none := by
          refine lookupG_eq_none k rest fun q hq => ?_
          intro he
          have hq1 := hk' q hq
          rw [← he] at hq1
          exact absurd hq1 (lt_asymm h1)
        rw [this] at hlk
        cases hlk
      · simp only [mapEntryExtend, if_neg h1, if_neg h2]
        rw [ih hrest hlk]

theorem unionGroups_self (m : List (α × List α)) (h : GroupsWF m) :
    unionGroups m m = m := by
  have haux : ∀ l, (∀ p ∈ l, p ∈ m) →
      List.foldl (fun acc p => mapEntryExtend p.1 p.2 acc) m l = m := by
    intro l
    induction l with
    | nil => intro _; rfl
    | cons p rest ih =>
      intro hsub
      have hp : p ∈ m := hsub p (List.mem_cons_self _ _)
      have hlk : lookupG p.1 m = some p.2 := lookupG_of_mem p.1 p.2 m h.1 (by
        simpa using hp)
      have hext : setExtend p.2 p.2 = p.2 :=
        setExtend_subset_no_op p.2 p.2 (h.2 p hp) fun x hx => hx
      simp only [List.foldl_cons,
        mapEntryExtend_no_op p.1 p.2 p.2 m h.1 hlk hext]
      exact ih fun q hq => hsub q (List.mem_cons_of_mem _ hq)
  exact haux m fun p hp => hp

theorem GroupsWF_of_suffix (t u : List (α × List α)) (h : t.IsSuffix u)
    (hu : GroupsWF u) : GroupsWF t :=
  ⟨hu.1.sublist h.sublist, fun p hp => hu.2 p (h.subset hp)⟩

/-- **C9.**  The planner's target-group computation is idempotent:
recomputing with the previous target as both the local and the cloud input
returns that target unchanged, so a second planning run makes identical
decisions. -/
theorem get_target_backup_groups_idempotent (localG cloudG : List (α × List α))
    (K : Nat) (hl : GroupsWF localG) (hc : GroupsWF cloudG) (hK : 0 < K) :
    get_target_backup_groups (get_target_backup_groups localG cloudG K)
      (get_target_backup_groups localG cloudG K) K =
      get_target_backup_groups localG cloudG K := by
  have hUwf : GroupsWF (unionGroups localG cloudG) :=
    unionGroups_wf localG cloudG hl
  have hTsuffix : (get_target_backup_groups localG cloudG K).IsSuffix
      (unionGroups localG cloudG) :=
    (get_target_backup_groups_spec localG cloudG K hl hc hK).1
  have hTwf : GroupsWF (get_target_backup_groups localG cloudG K) :=
    GroupsWF_of_suffix _ _ hTsuffix hUwf
  have hTT : unionGroups (get_target_backup_groups localG cloudG K)
      (get_target_backup_groups localG cloudG K) =
      get_target_backup_groups localG cloudG K :=
    unionGroups_self _ hTwf
  by_cases hlen : K < (unionGroups localG cloudG).length
  · rcases hfc : findCut K 0 (unionGroups localG cloudG).reverse with _ | k
    · -- fewer than K non-empty groups: the target is the whole union and
      -- the second run cuts nothing either
      have hT : get_target_backup_groups localG cloudG K =
          unionGroups localG cloudG := by
        simp only [get_target_backup_groups, if_pos hlen, hfc]
      rw [hT] at hTT ⊢
      simp only [get_target_backup_groups, hTT, if_pos hlen, hfc]
    · obtain ⟨pre, bs, post, hdec, hbs, hcnt⟩ :=
        findCut_some K k (unionGroups localG cloudG).reverse 0 hK hfc
      have hU : unionGroups localG cloudG =
          post.reverse ++ (k, bs) :: pre.reverse := by
        have := congrArg List.reverse hdec
        rw [List.reverse_reverse] at this
        rw [this]
        simp
      have hx : ∀ p ∈ post.reverse, p.1 < k := by
        have hUpair := hUwf.1
        rw [hU] at hUpair
        intro p hp
        exact (List.pairwise_append.mp hUpair).2.2 p hp (k, bs)
          (List.mem_cons_self _ _)
      have hT : get_target_backup_groups localG cloudG K =
          (k, bs) :: pre.reverse := by
        simp only [get_target_backup_groups, if_pos hlen, hfc]
        rw [hU]
        show splitOffGE k (post.reverse ++ (k, bs) :: pre.reverse) = _
        exact splitOffGE_decompose k bs post.reverse pre.reverse hx
      rw [hT] at hTT ⊢
      by_cases hlen2 : K < ((k, bs) :: pre.reverse).length
      · have hbs' : bs.isEmpty = false := by
          rcases bs with _ | _
          · exact absurd rfl hbs
          · rfl
        have hrev : ((k, bs) :: pre.reverse).reverse = pre ++ [(k, bs)] := by
          simp
        have hfc2 : findCut K 0 (((k, bs) :: pre.reverse).reverse) = some k := by
          rw [hrev, findCut_append K pre [(k, bs)] 0 (by omega)]
          rw [findCut, if_neg (by rw [hbs']; exact Bool.false_ne_true),
            if_pos (by omega)]
        simp only [get_target_backup_groups, hTT, if_pos hlen2, hfc2]
        show splitOffGE k ((k, bs) :: pre.reverse) = _
        have : (k, bs) :: pre.reverse = [] ++ (k, bs) :: pre.reverse := rfl
        rw [this, splitOffGE_decompose k bs [] pre.reverse (by simp)]
        rfl
      · simp only [get_target_backup_groups, hTT, if_neg hlen2]
  · have hT : get_target_backup_groups localG cloudG K =
        unionGroups localG cloudG :=
      get_target_of_within_cap localG cloudG K hlen
    rw [hT] at hTT ⊢
    simp only [get_target_backup_groups, hTT, if_neg hlen]

/-- **C9 witness.** -/
theorem get_target_backup_groups_idempotent_witness :
    GroupsWF [(1, [1, 2]), (3, [1])] ∧ GroupsWF [(2, [1])] ∧ 0 < 1 ∧
    get_target_backup_groups
      (get_target_backup_groups [(1, [1, 2]), (3, [1])] [(2, [1])] 1)
      (get_target_backup_groups [(1, [1, 2]), (3, [1])] [(2, [1])] 1) 1 =
      get_target_backup_groups [(1, [1, 2]), (3, [1])] [(2, [1])] 1 :=
  ⟨by decide, by decide, by decide,
    get_target_backup_groups_idempotent [(1, [1, 2]), (3, [1])] [(2, [1])] 1
      (by decide) (by decide) (by decide)⟩

end Planner

end SyncPlanner

/-!
The encryptor (`src/encryptor.rs`).  The struct owns optional handles; the
outcomes of the external operations performed during teardown (flushing the
child's stdin, joining the stdout-reader thread) are stored alongside the
handles: `stdin = some o` means the writer is still held and flushing it
would yield `o`.  Errors are identified by their rendered message strings,
which is exactly what `close` propagates (`err.to_string()`).
-/

namespace Encryptor

/-- The `Encryptor` struct: `result` is the sticky stored outcome;
`sentErrorFrame` records whether a terminal error frame was pushed into the
ciphertext channel during teardown. -/
structure Encryptor where
  result : Option (Except String Unit)
  stdin : Option (Except String Unit)
  stdout_reader : Option (Except String Unit)
  encrypted_chunks_tx : Bool
  sentErrorFrame : Bool
deriving Repr

/-- `Encryptor::close`: idempotent via `result`; otherwise flush stdin
(a flush error replaces `result`), join the stdout reader (a join error
replaces `result` again), then push one error frame into the ciphertext
channel if the folded result is an error; finally report the stored
outcome with its message rendered. -/
def close (e : Encryptor) (result : Except String Unit) :
    Encryptor × Except String Unit :=
  match e.result with
  | some prev =>
    (e, match prev with
        | .ok _ => .ok ()
        | .error msg => .error msg)
  | none =>
    let r1 := match e.stdin with
      | some (.error msg) => Except.error msg
      | _ => result
    let r2 := match e.stdout_reader with
      | some (.error msg) => Except.error msg
      | _ => r1
    let sent := e.encrypted_chunks_tx &&
      (match r2 with | .error _ => true | .ok _ => false)
    ({ result := some r2, stdin := none, stdout_reader := none,
       encrypted_chunks_tx := false,
       sentErrorFrame := e.sentErrorFrame || sent },
     match r2 with
     | .ok _ => Except.ok ()
     | .error msg => Except.error msg)

/-- `Encryptor::finish`. -/
def finish (e : Encryptor) : Encryptor × Except String Unit :=
  close e (.ok ())

/-- `io::Write::write for Encryptor`; `writeResult` is the outcome of the
underlying `self.stdin.write(buf)`.  `none` models a panic (`unwrap` of a
missing stdin, or `unwrap_err` of a successful stored result). -/
def write (e : Encryptor) (writeResult : Except String Nat) :
    Option (Encryptor × Except String Nat) :=
  match e.result with
  | some r =>
    match r with
    | .error msg => some (e, .error msg)
    | .ok _ => none
  | none =>
    match e.stdin with
    | none => none
    | some _ =>
      match writeResult with
      | .ok n => some (e, .ok n)
      | .error msg =>
        match close e (.error msg) with
        | (e1, .error m) => some (e1, .error m)
        | (_, .ok _) => none

/-- `io::Write::flush for Encryptor`; `flushResult` is the outcome of the
underlying `self.stdin.flush()`. -/
def flush (e : Encryptor) (flushResult : Except String Unit) :
    Option (Encryptor × Except String Unit) :=
  match e.result with
  | some r =>
    match r with
    | .error msg => some (e, .error msg)
    | .ok _ => none
  | none =>
    match e.stdin with
    | none => none
    | some _ =>
      match flushResult with
      | .ok _ => some (e, .ok ())
      | .error msg =>
        match close e (.error msg) with
        | (e1, .error m) => some (e1, .error m)
        | (_, .ok _) => none

/-- The result folding of the `stdout_reader` worker: a ciphertext read
error short-circuits; otherwise a stderr-join error is reported; otherwise
a wait failure or a non-zero exit status. -/
def stdout_reader (readData stderrJoin : Except String Unit)
    (wait : Except String Bool) : Except String Unit :=
  match readData with
  | .error msg => .error msg
  | .ok _ =>
    match stderrJoin with
    | .error msg => .error msg
    | .ok _ =>
      match wait with
      | .error msg =>
        .error ("Failed to wait() a child gpg process: " ++ msg)
      | .ok true => .ok ()
      | .ok false => .error "gpg process has terminated with an error exit code"

/-- When `close` is handed an error and no result is stored yet, the stored
and reported outcome is an error (possibly with a message replaced by a
later teardown error). -/
theorem close_error_of_error (e : Encryptor) (msg : String)
    (h1 : e.result = none) :
    ∃ m e1, close e (.error msg) = (e1, .error m) ∧
      e1.result = some (.error m) ∧ e1.stdin = none := by
  rcases e with ⟨res, stdin9, reader9, tx9, sent9⟩
  subst h1
  rcases stdin9 with _ | fl
  · rcases reader9 with _ | jr
    · exact ⟨msg, _, rfl, rfl, rfl⟩
    · rcases jr with jm | _
      · exact ⟨jm, _, rfl, rfl, rfl⟩
      · exact ⟨msg, _, rfl, rfl, rfl⟩
  · rcases fl with fm | _
    · rcases reader9 with _ | jr
      · exact ⟨fm, _, rfl, rfl, rfl⟩
      · rcases jr with jm | _
        · exact ⟨jm, _, rfl, rfl, rfl⟩
        · exact ⟨fm, _, rfl, rfl, rfl⟩
    · rcases reader9 with _ | jr
      · exact ⟨msg, _, rfl, rfl, rfl⟩
      · rcases jr with jm | _
        · exact ⟨jm, _, rfl, rfl, rfl⟩
        · exact ⟨msg, _, rfl, rfl, rfl⟩

theorem write_in_failed_state (e1 : Encryptor) (m : String)
    (h : e1.result = some (.error m)) (w : Except String Nat) :
    write e1 w = some (e1, .error m) := by
  simp only [write, h]

theorem flush_in_failed_state (e1 : Encryptor) (m : String)
    (h : e1.result = some (.error m)) (f : Except String Unit) :
    flush e1 f = some (e1, .error m) := by
  simp only [flush, h]

theorem finish_in_failed_state (e1 : Encryptor) (m : String)
    (h : e1.result = some (.error m)) :
    finish e1 = (e1, .error m) := by
  simp only [finish, close, h]

/-- **C6.**  A failing write (or flush) drives the encryptor into a sticky
failed state with a recorded error message: the failing call reports that
message, every subsequent `write` and `flush` returns the same message
without touching the state, and `finish()` reports it (once — `finish`
consumes the encryptor). -/
theorem encryptor_sticky_failure (e : Encryptor) (fl : Except String Unit)
    (msg : String) (h1 : e.result = none) (h2 : e.stdin = some fl) :
    (∃ m e1, write e (.error msg) = some (e1, .error m) ∧
       e1.result = some (.error m) ∧
       (∀ w, write e1 w = some (e1, .error m)) ∧
       (∀ f, flush e1 f = some (e1, .error m)) ∧
       finish e1 = (e1, .error m)) ∧
    (∃ m e1, flush e (.error msg) = some (e1, .error m) ∧
       e1.result = some (.error m) ∧
       (∀ w, write e1 w = some (e1, .error m)) ∧
       (∀ f, flush e1 f = some (e1, .error m)) ∧
       finish e1 = (e1, .error m)) := by
  obtain ⟨m, e1, hc, hres, _⟩ := close_error_of_error e msg h1
  constructor
  · refine ⟨m, e1, ?_, hres, fun w => write_in_failed_state e1 m hres w,
      fun f => flush_in_failed_state e1 m hres f,
      finish_in_failed_state e1 m hres⟩
    simp only [write, h1, h2, hc]
  · refine ⟨m, e1, ?_, hres, fun w => write_in_failed_state e1 m hres w,
      fun f => flush_in_failed_state e1 m hres f,
      finish_in_failed_state e1 m hres⟩
    simp only [flush, h1, h2, hc]

/-- **C6 witness.** -/
theorem encryptor_sticky_failure_witness :
    (Encryptor.mk none (some (.ok ())) (some (.ok ())) true false).result =
      none ∧
    (Encryptor.mk none (some (.ok ())) (some (.ok ())) true false).stdin =
      some (.ok ()) ∧
    ((∃ m e1, write (Encryptor.mk none (some (.ok ())) (some (.ok ())) true
        false) (.error "gpg stdin write error") = some (e1, .error m) ∧
       e1.result = some (.error m) ∧
       (∀ w, write e1 w = some (e1, .error m)) ∧
       (∀ f, flush e1 f = some (e1, .error m)) ∧
       finish e1 = (e1, .error m)) ∧
    (∃ m e1, flush (Encryptor.mk none (some (.ok ())) (some (.ok ())) true
        false) (.error "gpg stdin write error") = some (e1, .error m) ∧
       e1.result = some (.error m) ∧
       (∀ w, write e1 w = some (e1, .error m)) ∧
       (∀ f, flush e1 f = some (e1, .error m)) ∧
       finish e1 = (e1, .error m))) :=
  ⟨rfl, rfl, encryptor_sticky_failure
    (Encryptor.mk none (some (.ok ())) (some (.ok ())) true false)
    (.ok ()) "gpg stdin write error" rfl rfl⟩

/-- **C7 counterexample.**  Teardown does *not* keep the first error: with
a pending stdin-flush error and a stdout-reader join error, `close` invoked
with an already-recorded error reports the join error — the latest one —
rather than the earlier stdin error or the passed-in one. -/
theorem encryptor_close_first_error_counterexample :
    (close (Encryptor.mk none (some (.error "stdin flush error"))
        (some (.error "stdout reader join error")) true false)
      (.error "original write error")).2 =
      .error "stdout reader join error" ∧
    "stdout reader join error" ≠ "original write error" ∧
    "stdout reader join error" ≠ "stdin flush error" :=
  ⟨rfl, by decide, by decide⟩

/-- **C7 amended.**  During `Encryptor::close` the *last* error observed
wins: a stdin flush error replaces the passed-in result whenever the
stdout-reader join does not fail (absent handle or successful join), and a
stdout-reader join error replaces whatever was recorded before it (the
passed-in result or a stdin flush error).  Only inside the `stdout_reader`
worker does the first error win: a ciphertext read error short-circuits,
and non-empty stderr becomes the error only when no read error occurred. -/
theorem encryptor_close_last_error_wins (e : Encryptor)
    (r : Except String Unit) (h1 : e.result = none) :
    (∀ jm, e.stdout_reader = some (.error jm) →
      (close e r).2 = .error jm ∧
      (close e r).1.result = some (.error jm)) ∧
    (∀ fm, e.stdin = some (.error fm) →
      (e.stdout_reader = none ∨ e.stdout_reader = some (.ok ())) →
      (close e r).2 = .error fm ∧
      (close e r).1.result = some (.error fm)) ∧
    (∀ rm stderrJoin wait,
      stdout_reader (.error rm) stderrJoin wait = .error rm) ∧
    (∀ em wait, stdout_reader (.ok ()) (.error em) wait = .error em) := by
  rcases e with ⟨res, stdin9, reader9, tx9, sent9⟩
  cases h1
  refine ⟨?_, ?_, fun rm s w => rfl, fun em w => rfl⟩
  · intro jm hj
    cases hj
    exact ⟨rfl, rfl⟩
  · intro fm hf hj
    cases hf
    rcases hj with hj | hj <;> cases hj
    · exact ⟨rfl, rfl⟩
    · exact ⟨rfl, rfl⟩

/-- **C7 amended witness.**  One call exercises the join-error override,
another the flush-error override with a successful join. -/
theorem encryptor_close_last_error_wins_witness :
    ((Encryptor.mk none (some (.error "stdin flush error"))
      (some (.error "join error")) true false).result = none ∧
    ((∀ jm, (Encryptor.mk none (some (.error "stdin flush error"))
        (some (.error "join error")) true false).stdout_reader =
          some (.error jm) →
      (close (Encryptor.mk none (some (.error "stdin flush error"))
        (some (.error "join error")) true false) (.ok ())).2 = .error jm ∧
      (close (Encryptor.mk none (some (.error "stdin flush error"))
        (some (.error "join error")) true false)
        (.ok ())).1.result = some (.error jm)) ∧
    (∀ fm, (Encryptor.mk none (some (.error "stdin flush error"))
        (some (.error "join error")) true false).stdin = some (.error fm) →
      ((Encryptor.mk none (some (.error "stdin flush error"))
        (some (.error "join error")) true false).stdout_reader = none ∨
       (Encryptor.mk none (some (.error "stdin flush error"))
        (some (.error "join error")) true false).stdout_reader =
          some (.ok ())) →
      (close (Encryptor.mk none (some (.error "stdin flush error"))
        (some (.error "join error")) true false) (.ok ())).2 = .error fm ∧
      (close (Encryptor.mk none (some (.error "stdin flush error"))
        (some (.error "join error")) true false)
        (.ok ())).1.result = some (.error fm)) ∧
    (∀ rm stderrJoin wait,
      stdout_reader (.error rm) stderrJoin wait = .error rm) ∧
    (∀ em wait, stdout_reader (.ok ()) (.error em) wait = .error em))) ∧
    ((Encryptor.mk none (some (.error "stdin flush error")) (some (.ok ()))
      true false).result = none ∧
    (close (Encryptor.mk none (some (.error "stdin flush error"))
      (some (.ok ())) true false) (.error "original write error")).2 =
      .error "stdin flush error") :=
  ⟨⟨rfl, encryptor_close_last_error_wins
      (Encryptor.mk none (some (.error "stdin flush error"))
        (some (.error "join error")) true false) (.ok ()) rfl⟩,
   rfl,
   ((encryptor_close_last_error_wins
      (Encryptor.mk none (some (.error "stdin flush error"))
        (some (.ok ())) true false) (.error "original write error")
      rfl).2.1 "stdin flush error" rfl (Or.inr rfl)).1⟩

end Encryptor

/-!
The HTTP transport's error parser (`parse_api_error` in
`src/http_client/client.rs`, and the earlier draft `parse_error` in
`src/http_client.rs`).  The HTTP status is represented by its rendered
`Display` string (`status.to_string()`, e.g. `"413 Payload Too Large"`),
the content type by the three cases the parser distinguishes, and the JSON
decoder by an argument function.
-/

namespace HttpClient

/-- A response `Content-Type` as the parser classifies it. -/
inductive Mime where
  | textPlain
  | applicationJson
  | other (descr : String)
deriving Repr, DecidableEq

/-- Strip one trailing carriage return (as Rust's `lines()` does). -/
def stripTrailingCR (l : List Char) : List Char :=
  match l.getLast? with
  | some c => if c = '\r' then l.dropLast else l
  | none => l

/-- `body.lines().next().unwrap_or("")`: the first line of the body — the
characters before the first newline, one trailing carriage return
stripped. -/
def firstLine (s : List Char) : List Char :=
  stripTrailingCR (s.takeWhile fun c => c ≠ '\n')

/-- `trim_right_matches('.')`: drop all trailing periods. -/
def trimTrailingDots (l : List Char) : List Char :=
  (l.reverse.dropWhile fun c => c = '.').reverse

/-- `str::trim()`: drop whitespace from both ends. -/
def rustTrim (l : List Char) : List Char :=
  ((l.dropWhile Char.isWhitespace).reverse.dropWhile Char.isWhitespace).reverse

/-- `parse_api_error` of `src/http_client/client.rs`. -/
def parse_api_error {T : Type} (statusStr : String) (contentType : Option Mime)
    (body : String) (decodeJson : String → Except String T) :
    Except String T :=
  match contentType with
  | none =>
    .error ("Server returned " ++ statusStr ++
      " error with an invalid content type")
  | some Mime.textPlain =>
    let line := rustTrim (trimTrailingDots (firstLine body.data))
    let error := if line.isEmpty then statusStr else String.mk line
    .error ("Server returned an error: " ++ error)
  | some Mime.applicationJson =>
    match decodeJson body with
    | .ok v => .ok v
    | .error e => .error ("Server returned an invalid JSON response: " ++ e)
  | some (Mime.other descr) =>
    .error ("Server returned " ++ statusStr ++
      " error with an invalid content type: " ++ descr)

/-- `parse_error` of `src/http_client.rs` (the draft without a JSON
branch). -/
def parse_error (statusStr : String) (contentType : Option Mime)
    (body : String) : Except String Unit :=
  match contentType with
  | none =>
    .error ("Server returned " ++ statusStr ++
      " error with an invalid content type")
  | some Mime.textPlain =>
    let line := rustTrim (trimTrailingDots (firstLine body.data))
    let error := if line.isEmpty then statusStr else String.mk line
    .error ("Server returned an error: " ++ error)
  | some Mime.applicationJson =>
    .error ("Server returned " ++ statusStr ++
      " error with an invalid content type: application/json")
  | some (Mime.other descr) =>
    .error ("Server returned " ++ statusStr ++
      " error with an invalid content type: " ++ descr)

/-- The lines of a string: split at newlines. -/
def specLines : List Char → List (List Char)
  | [] => [[]]
  | c :: rest =>
    if c = '\n' then [] :: specLines rest
    else
      match specLines rest with
      | [] => [[c]]
      | l :: ls => (c :: l) :: ls

/-- The message the claim predicts for a `text/plain` error body: the
first NON-empty line, with trailing periods and whitespace trimmed, the
status line when that is empty. -/
def claimMessage (statusStr : String) (body : String) : String :=
  let lines9 := (specLines body.data).map stripTrailingCR
  let ln := ((lines9.filter fun l => ¬l.isEmpty).head?).getD []
  let t := rustTrim (trimTrailingDots ln)
  if t.isEmpty then statusStr else String.mk t

/-- The amended reading: the FIRST line of the body, whether or not it is
empty, trimmed the same way. -/
def amendedMessage (statusStr : String) (body : String) : String :=
  let ln := (((specLines body.data).map stripTrailingCR).head?).getD []
  let t := rustTrim (trimTrailingDots ln)
  if t.isEmpty then statusStr else String.mk t

theorem specLines_ne_nil (s : List Char) : specLines s ≠ [] := by
  induction s with
  | nil => simp [specLines]
  | cons c rest ih =>
    by_cases h : c = '\n'
    · simp [specLines, h]
    · simp only [specLines, if_neg h]
      rcases hr : specLines rest with _ | ⟨l, ls⟩
      · simp
      · simp

theorem specLines_head (s : List Char) :
    (((specLines s).head?).getD []) = s.takeWhile fun c => c ≠ '\n' := by
  induction s with
  | nil => rfl
  | cons c rest ih =>
    by_cases h : c = '\n'
    · subst h
      simp [specLines, List.takeWhile_cons]
    · simp only [specLines, if_neg h]
      rcases hr : specLines rest with _ | ⟨l, ls⟩
      · exact absurd hr (specLines_ne_nil rest)
      · rw [hr] at ih
        simp only [List.head?_cons, Option.getD_some] at ih ⊢
        rw [List.takeWhile_cons, if_pos (by simpa using h), ih]

theorem firstLine_eq_specLines (s : List Char) :
    ((((specLines s).map stripTrailingCR).head?).getD []) = firstLine s := by
  rcases h : specLines s with _ | ⟨l, ls⟩
  · exact absurd h (specLines_ne_nil s)
  · have hl : l = s.takeWhile fun c => c ≠ '\n' := by
      have h2 := specLines_head s
      rw [h] at h2
      simpa using h2
    simp only [h, List.map_cons, List.head?_cons, Option.getD_some, firstLine,
      hl]

/-- **C8 counterexample.**  The parser takes the *first* line of a
`text/plain` body, not the first non-empty one: for the 413 body
`"\nToo large."` the first line is empty, so the status line is used, and
the message differs from the one the claim predicts (`"Too large"`, from
the first non-empty line). -/
theorem parse_api_error_first_nonempty_counterexample :
    parse_api_error (T := Unit) "413 Payload Too Large" (some Mime.textPlain)
      "\nToo large." (fun _ => Except.error "") =
      Except.error "Server returned an error: 413 Payload Too Large" ∧
    claimMessage "413 Payload Too Large" "\nToo large." = "Too large" ∧
    "Server returned an error: 413 Payload Too Large" ≠
      "Server returned an error: Too large" :=
  ⟨rfl, rfl, by decide⟩

/-- **C8 amended.**  For a non-success `text/plain` response the message is
the *first* line of the body (empty when the body is empty) with trailing
periods trimmed first and surrounding whitespace trimmed second, the
rendered status line being used when that yields an empty string; in
particular a 413 response with body `"Too large."` yields
`"Server returned an error: Too large"`.  Both the transport's parser and
the earlier draft behave identically. -/
theorem parse_api_error_first_line {T : Type} (statusStr body : String)
    (decodeJson : String → Except String T) :
    parse_api_error statusStr (some Mime.textPlain) body decodeJson =
      Except.error ("Server returned an error: " ++
        amendedMessage statusStr body) ∧
    parse_error statusStr (some Mime.textPlain) body =
      Except.error ("Server returned an error: " ++
        amendedMessage statusStr body) ∧
    parse_api_error "413 Payload Too Large" (some Mime.textPlain)
      "Too large." decodeJson =
      Except.error "Server returned an error: Too large" := by
  refine ⟨?_, ?_, rfl⟩
  · simp only [parse_api_error, amendedMessage, firstLine_eq_specLines]
  · simp only [parse_error, amendedMessage, firstLine_eq_specLines]

end HttpClient
